import Mathlib

/-!
Verification of the grid badge layout engine of this repository
(src/app.py and the variant src/app_backup.py).

The embedding below translates the layout core into Lean:

* Font sizes, widths and coordinates are rational numbers; the Python
  float step 0.5 and every coordinate computation of the source are exact
  in binary floating point at the magnitudes involved, so `ℚ` is a faithful
  idealization.
* The fpdf measurement capability (set_font followed by get_string_width)
  is an abstract function parameter: `Measure` maps font, size and text to
  a width.  Theorems quantify over it, which covers every font and metrics
  table.
* Python string primitives used by the source (str.split() with no
  arguments, str.strip(), str.lower()) are modelled structurally on the
  character list of the string, matching their documented behaviour.
* The drawing side effects of draw_grid (add_page, rect, cell) are
  reified as a list of abstract draw instructions, in emission order.
-/

/-- Fonts registered by the application (app.py lines 30-31). -/
inductive Font
  | muli
  | din
  deriving DecidableEq

/-- Width measurement capability: pdf.set_font(font, "", size) followed by
pdf.get_string_width(text), as a pure function of font, size and text. -/
abbrev Measure := Font → ℚ → String → ℚ

/-- Page and grid configuration constants, app.py lines 8-27 (mm, A4 landscape). -/
def PAGE_WIDTH : ℚ := 297

def PAGE_HEIGHT : ℚ := 210

def COLUMNS : ℕ := 4

def ROWS : ℕ := 8

def CELL_WIDTH : ℚ := 70

def CELL_HEIGHT : ℚ := 23

def CELL_SPACING : ℚ := 1

def LINE_HEIGHT : ℚ := 11 / 2

def PADDING : ℚ := 2

def MAX_FONT_SIZE : ℚ := 11

def MIN_FONT_SIZE : ℚ := 7

def grid_width : ℚ := (COLUMNS : ℚ) * CELL_WIDTH + ((COLUMNS : ℚ) - 1) * CELL_SPACING

def grid_height : ℚ := (ROWS : ℚ) * CELL_HEIGHT + ((ROWS : ℚ) - 1) * CELL_SPACING

def LEFT_MARGIN : ℚ := (PAGE_WIDTH - grid_width) / 2

def TOP_MARGIN : ℚ := (PAGE_HEIGHT - grid_height) / 2

/-- Loop of shrink_text_to_fit, app.py lines 37-41: while the measured width
of text at the current size exceeds max_width and the size is above
min_size, decrement the size by 0.5 and re-measure.  The width argument
abstracts get_string_width at a given size. -/
def shrinkLoop (width : ℚ → String → ℚ) (text : String) (max_width min_size size : ℚ) : ℚ :=
  if h : width size text > max_width ∧ size > min_size then
    shrinkLoop width text max_width min_size (size - 1 / 2)
  else
    size
termination_by (⌈2 * (size - min_size)⌉).toNat
decreasing_by
  have e : 2 * (size - 1 / 2 - min_size) = 2 * (size - min_size) - 1 := by ring
  have hpos : (0 : ℚ) < 2 * (size - min_size) := by linarith [h.2]
  have hceil : 0 < ⌈2 * (size - min_size)⌉ := Int.ceil_pos.mpr hpos
  have e2 : ⌈2 * (size - 1 / 2 - min_size)⌉ = ⌈2 * (size - min_size)⌉ - 1 := by
    rw [e]
    exact Int.ceil_sub_one _
  omega

/-- shrink_text_to_fit from app.py lines 36-42, with the size bounds passed
explicitly (the source defaults them to MAX_FONT_SIZE and MIN_FONT_SIZE). -/
def shrink_text_to_fit (width : ℚ → String → ℚ) (text : String)
    (max_width max_size min_size : ℚ) : ℚ :=
  shrinkLoop width text max_width min_size max_size

/-- Fuel-indexed variant of the shrink loop, by structural recursion on the
fuel; used to state that the source loop terminates on every input. -/
def shrinkLoopFuel (width : ℚ → String → ℚ) (text : String) (max_width min_size : ℚ) :
    ℕ → ℚ → Option ℚ
  | 0, _ => none
  | n + 1, size =>
    if width size text > max_width ∧ size > min_size then
      shrinkLoopFuel width text max_width min_size n (size - 1 / 2)
    else
      some size

/-- Words joined by single spaces, the Python expression " ".join(ws).  In
wrap_text the string current_line.strip() always has this form. -/
def sep : List String → String
  | [] => ""
  | [w] => w
  | w :: ws => w ++ " " ++ sep ws

/-- Helper for pySplit: scan the character list, accumulating the current
word in reverse in cur, splitting at runs of whitespace. -/
def wordsAux : List Char → List Char → List (List Char)
  | [], cur => if cur = [] then [] else [cur.reverse]
  | c :: cs, cur =>
    if c.isWhitespace then
      if cur = [] then wordsAux cs [] else cur.reverse :: wordsAux cs []
    else
      wordsAux cs (c :: cur)

/-- Python text.split() with no arguments (app.py line 47): split on runs of
whitespace and drop empty pieces, so every returned word is nonempty and
contains no whitespace character. -/
def pySplit (s : String) : List String := (wordsAux s.data []).map String.mk

/-- Loop of wrap_text, app.py lines 48-60, at the level of word lists.  In
the source, current_line equals sep cur ++ " " whenever cur is nonempty and
"" when cur is empty; since words produced by split() contain no whitespace,
(current_line + word + " ").strip() equals sep (cur ++ [word]) and
current_line.strip() equals sep cur, so the accumulation below is the exact
word-level image of the string accumulation of the source. -/
def wrapLoop (width : String → ℚ) (max_width : ℚ) :
    List String → List String → List String → List String
  | [], lines, cur => if cur = [] then lines else lines ++ [sep cur]
  | w :: ws, lines, cur =>
    if width (sep (cur ++ [w])) ≤ max_width then
      wrapLoop width max_width ws lines (cur ++ [w])
    else if cur = [] then
      wrapLoop width max_width ws lines [w]
    else
      wrapLoop width max_width ws (lines ++ [sep cur]) [w]

/-- wrap_text from app.py lines 45-62.  The width argument abstracts
get_string_width at the font and size fixed by the caller. -/
def wrap_text (width : String → ℚ) (text : String) (max_width : ℚ) : List String :=
  wrapLoop width max_width (pySplit text) [] []

/-- Python value.strip(): drop leading and trailing whitespace. -/
def pyStrip (s : String) : String :=
  String.mk (((s.data.dropWhile Char.isWhitespace).reverse.dropWhile Char.isWhitespace).reverse)

/-- Python value.lower(); the null marker test only involves ASCII. -/
def pyLower (s : String) : String := String.mk (s.data.map Char.toLower)

/-- Field presence test, app.py line 100: pd.notna(value) and value.strip()
and value.lower() != 'nan'.  The value is always a str (line 98 applies
str), and pd.notna of a str is always true, so presence reduces to the two
string tests. -/
def present (v : String) : Bool := pyStrip v != "" && pyLower v != "nan"

/-- One spreadsheet record after the str() conversion of app.py line 98:
a missing key yields "" (the row.get default) and a NaN cell yields "nan". -/
structure Record where
  fullName : String
  position : String
  company : String
  deriving DecidableEq

/-- Abstract draw instructions emitted by draw_grid, in order: add_page
marker, border rectangle, or one centered text line of the given content,
font and size at position (x, y). -/
inductive DrawInstr
  | page
  | rect (x y w h : ℚ)
  | text (x y : ℚ) (content : String) (font : Font) (size : ℚ)
  deriving DecidableEq

/-- Content and font of a text instruction, none for the other kinds. -/
def textOf : DrawInstr → Option (String × Font)
  | DrawInstr.text _ _ t f _ => some (t, f)
  | _ => none

/-- True exactly on the add_page marker. -/
def DrawInstr.isPage : DrawInstr → Bool
  | DrawInstr.page => true
  | _ => false

/-- Usable width inside a cell, app.py line 75. -/
def max_width : ℚ := CELL_WIDTH - 2 * PADDING

/-- Entries of one record, app.py lines 92-101: the three configured fields
with their fonts, keeping only present values. -/
def entriesOf (r : Record) : List (Font × String) :=
  ([(Font.muli, r.fullName), (Font.din, r.position), (Font.din, r.company)]).filter
    (fun e => present e.2)

/-- Wrapped lines of one record, app.py lines 103-107: for each present
field, shrink the font to fit, wrap at the resulting size, and tag every
wrapped line with its font and size.  The source binds the shrunk size to
font_size once and uses it twice; the computation is pure, so the repeated
application below denotes the same value. -/
def recLines (M : Measure) (r : Record) : List (String × Font × ℚ) :=
  (entriesOf r).flatMap (fun e =>
    (wrap_text (M e.1 (shrink_text_to_fit (M e.1) e.2 max_width MAX_FONT_SIZE MIN_FONT_SIZE))
        e.2 max_width).map
      (fun l => (l, e.1, shrink_text_to_fit (M e.1) e.2 max_width MAX_FONT_SIZE MIN_FONT_SIZE)))

/-- Cell x coordinate for record index k, app.py lines 78-79 and 85. -/
def cellX (k : ℕ) : ℚ :=
  LEFT_MARGIN + (↑(k % (COLUMNS * ROWS) % COLUMNS) : ℚ) * (CELL_WIDTH + CELL_SPACING)

/-- Cell y coordinate for record index k, app.py lines 78, 80 and 86. -/
def cellY (k : ℕ) : ℚ :=
  TOP_MARGIN + (↑(k % (COLUMNS * ROWS) / COLUMNS) : ℚ) * (CELL_HEIGHT + CELL_SPACING)

/-- Vertical start offset, app.py lines 110-111: center the stack of lines
when it is shorter than the cell, otherwise start at the top edge. -/
def startY (k : ℕ) (lines : List (String × Font × ℚ)) : ℚ :=
  if (lines.length : ℚ) * LINE_HEIGHT < CELL_HEIGHT then
    cellY k + (CELL_HEIGHT - (lines.length : ℚ) * LINE_HEIGHT) / 2
  else
    cellY k

/-- Text emission loop, app.py lines 114-118, threading the enumerate index:
a line is drawn only when its bottom edge stays inside the cell. -/
def textInstrs (x0 sy yTop : ℚ) : ℕ → List (String × Font × ℚ) → List DrawInstr
  | _, [] => []
  | i, l :: rest =>
    (if sy + (i : ℚ) * LINE_HEIGHT + LINE_HEIGHT ≤ yTop + CELL_HEIGHT then
      [DrawInstr.text (x0 + PADDING) (sy + (i : ℚ) * LINE_HEIGHT) l.1 l.2.1 l.2.2]
    else []) ++ textInstrs x0 sy yTop (i + 1) rest

/-- Body of the draw_grid loop, app.py lines 77-118, for the record at
index k: optional page break, border rectangle, then the surviving lines. -/
def drawRecord (M : Measure) (k : ℕ) (r : Record) : List DrawInstr :=
  (if k % (COLUMNS * ROWS) = 0 ∧ k ≠ 0 then [DrawInstr.page] else []) ++
    DrawInstr.rect (cellX k) (cellY k) CELL_WIDTH CELL_HEIGHT ::
      textInstrs (cellX k) (startY k (recLines M r)) (cellY k) 0 (recLines M r)

/-- The enumerate loop of draw_grid, threading the record index. -/
def drawLoop (M : Measure) : ℕ → List Record → List DrawInstr
  | _, [] => []
  | k, r :: rest => drawRecord M k r ++ drawLoop M (k + 1) rest

/-- draw_grid from app.py lines 74-118: records are enumerated from 0. -/
def draw_grid (M : Measure) (data : List Record) : List DrawInstr := drawLoop M 0 data

/-- CellPlacement of the spec, section 3: cell_index, col and row_pos are
the arithmetic of app.py lines 78-80; the page index counts the page breaks
of line 82, which section 3 closes to record_index div (C times R). -/
structure CellPlacement where
  page : ℕ
  column : ℕ
  row : ℕ
  deriving DecidableEq

def cellPlacement (C R k : ℕ) : CellPlacement :=
  { page := k / (C * R), column := k % (C * R) % C, row := k % (C * R) / C }

/-- Number of add_page calls issued at or before record k by the condition
of app.py line 82, i.e. the zero-based page index the record lands on. -/
def recordPage (k : ℕ) : ℕ :=
  ((List.range (k + 1)).filter (fun j => j % (COLUMNS * ROWS) == 0 && j != 0)).length

namespace Backup

/-- Vertical start offset in app_backup.py lines 90-91: unconditionally
centered for the fixed stack of 3 lines. -/
def startY3 (k : ℕ) : ℚ := cellY k + (CELL_HEIGHT - 3 * LINE_HEIGHT) / 2

/-- Body of the draw_grid loop, app_backup.py lines 57-96: always three text
lines, one per field in order, no presence filter, no wrapping, and no
bottom-edge check before drawing. -/
def drawRecord (M : Measure) (k : ℕ) (r : Record) : List DrawInstr :=
  (if k % (COLUMNS * ROWS) = 0 ∧ k ≠ 0 then [DrawInstr.page] else []) ++
    [DrawInstr.rect (cellX k) (cellY k) CELL_WIDTH CELL_HEIGHT,
      DrawInstr.text (cellX k + PADDING) (startY3 k) r.fullName Font.muli
        (shrink_text_to_fit (M Font.muli) r.fullName max_width MAX_FONT_SIZE MIN_FONT_SIZE),
      DrawInstr.text (cellX k + PADDING) (startY3 k + LINE_HEIGHT) r.position Font.din
        (shrink_text_to_fit (M Font.din) r.position max_width MAX_FONT_SIZE MIN_FONT_SIZE),
      DrawInstr.text (cellX k + PADDING) (startY3 k + 2 * LINE_HEIGHT) r.company Font.din
        (shrink_text_to_fit (M Font.din) r.company max_width MAX_FONT_SIZE MIN_FONT_SIZE)]

/-- The enumerate loop of draw_grid in app_backup.py. -/
def drawLoop (M : Measure) : ℕ → List Record → List DrawInstr
  | _, [] => []
  | k, r :: rest => drawRecord M k r ++ drawLoop M (k + 1) rest

/-- draw_grid from app_backup.py lines 54-96. -/
def draw_grid (M : Measure) (data : List Record) : List DrawInstr := drawLoop M 0 data

end Backup

/-- Constant-zero metrics table (every string measures 0 wide at every font
and size), used by the concrete witnesses below. -/
def M0 : Measure := fun _ _ _ => 0

/-- Record with exactly one present field, used by the concrete witnesses. -/
def r0 : Record := { fullName := "A", position := "", company := "" }

/-- Record whose three fields are all absent in the sense of app.py line
100 (empty, whitespace only, and a textual null marker), used by the
concrete witnesses. -/
def rAbs : Record := { fullName := "", position := " ", company := "NaN" }

/-! ## Lemmas about the shrink loop -/

/-- Unfolding equation of the shrink loop. -/
theorem shrinkLoop_eq (w : ℚ → String → ℚ) (t : String) (mw ms size : ℚ) :
    shrinkLoop w t mw ms size =
      if w size t > mw ∧ size > ms then shrinkLoop w t mw ms (size - 1 / 2)
      else size := by
  rw [shrinkLoop]
  exact dite_eq_ite

/-- The termination measure of the shrink loop strictly decreases across one
iteration. -/
theorem ceil_measure_lt {a ms : ℚ} (h : ms < a) :
    (⌈2 * (a - 1 / 2 - ms)⌉).toNat < (⌈2 * (a - ms)⌉).toNat := by
  have e : 2 * (a - 1 / 2 - ms) = 2 * (a - ms) - 1 := by ring
  have hpos : (0 : ℚ) < 2 * (a - ms) := by linarith
  have hceil : 0 < ⌈2 * (a - ms)⌉ := Int.ceil_pos.mpr hpos
  have e2 : ⌈2 * (a - 1 / 2 - ms)⌉ = ⌈2 * (a - ms)⌉ - 1 := by
    rw [e]
    exact Int.ceil_sub_one _
  omega

/-- When the start size is min_size plus a natural number of half steps, the
shrink loop never leaves the interval between min_size and the start size. -/
theorem shrink_bounds (w : ℚ → String → ℚ) (t : String) (mw ms : ℚ) :
    ∀ (n : ℕ) (size : ℚ), size = ms + n / 2 →
      ms ≤ shrinkLoop w t mw ms size ∧ shrinkLoop w t mw ms size ≤ size := by
  intro n
  induction n with
  | zero =>
    intro size hs
    have hs' : size = ms := by rw [hs]; norm_num
    subst hs'
    rw [shrinkLoop_eq, if_neg]
    · exact ⟨le_refl _, le_refl _⟩
    · rintro ⟨-, h2⟩
      exact lt_irrefl _ h2
  | succ n ih =>
    intro size hs
    have hsz : ms ≤ size := by
      rw [hs]
      have : (0 : ℚ) ≤ (n + 1 : ℕ) / 2 := by positivity
      linarith
    rw [shrinkLoop_eq]
    by_cases hc : w size t > mw ∧ size > ms
    · rw [if_pos hc]
      have hstep : size - 1 / 2 = ms + n / 2 := by
        rw [hs]
        push_cast
        ring
      obtain ⟨h1, h2⟩ := ih (size - 1 / 2) hstep
      exact ⟨h1, by linarith⟩
    · rw [if_neg hc]
      exact ⟨hsz, le_refl _⟩

/-! ## C1 -/

/-- C1, counterexample to the claim as stated: with text "x", a metrics
table measuring every string as 100 wide, max_width 1 > 0 and size bounds
max_size 29/4, min_size 7 (so max_size >= min_size > 0), fit returns
27/4, which is strictly below min_size, hence outside the claimed closed
interval.  The gap between the bounds is not a multiple of the 0.5 step, so
the final decrement steps past the floor. -/
theorem fit_below_min_counterexample :
    (0 : ℚ) < 1 ∧ (0 : ℚ) < 7 ∧ (7 : ℚ) ≤ 29 / 4 ∧
      shrink_text_to_fit (fun _ _ => 100) "x" 1 (29 / 4) 7 < 7 := by
  refine ⟨by norm_num, by norm_num, by norm_num, ?_⟩
  rw [shrink_text_to_fit, shrinkLoop_eq, if_pos (by norm_num)]
  rw [shrinkLoop_eq, if_neg (by norm_num)]
  norm_num

/-- C1 (amended): for every text, metrics table, max_width > 0 and size
bounds with max_size >= min_size > 0 such that max_size - min_size is a
natural number of 0.5 steps (as is the case for the configured bounds 11
and 7), fit returns a size in the closed interval from min_size to
max_size; and whenever the measured width of the text at max_size is at
most max_width, fit returns exactly max_size (this last part needs no
hypothesis on the bounds beyond the step condition stated here). -/
theorem fit_size_bounds_of_step_multiple (w : ℚ → String → ℚ) (t : String)
    (mw maxs ms : ℚ) (_hmw : 0 < mw) (_hms : 0 < ms) (_hle : ms ≤ maxs)
    (hstep : ∃ n : ℕ, maxs = ms + n / 2) :
    ms ≤ shrink_text_to_fit w t mw maxs ms ∧
      shrink_text_to_fit w t mw maxs ms ≤ maxs ∧
      (w maxs t ≤ mw → shrink_text_to_fit w t mw maxs ms = maxs) := by
  obtain ⟨n, hn⟩ := hstep
  obtain ⟨h1, h2⟩ := shrink_bounds w t mw ms n maxs hn
  refine ⟨h1, h2, fun hfit => ?_⟩
  rw [shrink_text_to_fit, shrinkLoop_eq, if_neg]
  rintro ⟨hgt, -⟩
  exact absurd hfit (not_le.mpr hgt)

/-- C1, witness: the amended theorem applied at the configured bounds 11
and 7, max_width 1, and a metrics table measuring every string as 0 wide,
where the text fits at max_size and fit indeed returns 11. -/
theorem fit_size_bounds_witness :
    7 ≤ shrink_text_to_fit (fun _ _ => 0) "x" 1 11 7 ∧
      shrink_text_to_fit (fun _ _ => 0) "x" 1 11 7 ≤ 11 ∧
      shrink_text_to_fit (fun _ _ => 0) "x" 1 11 7 = 11 := by
  have h := fit_size_bounds_of_step_multiple (fun _ _ => 0) "x" 1 11 7 (by norm_num)
    (by norm_num) (by norm_num) ⟨8, by norm_num⟩
  exact ⟨h.1, h.2.1, h.2.2 (by norm_num)⟩

/-! ## C8 -/

/-- With strictly more fuel than the ceiling of twice the distance from the
start size down to min_size, the fueled loop completes and computes exactly
the value of the source loop. -/
theorem shrinkLoopFuel_spec (w : ℚ → String → ℚ) (t : String) (mw ms : ℚ) :
    ∀ (n : ℕ) (size : ℚ), (⌈2 * (size - ms)⌉).toNat < n →
      shrinkLoopFuel w t mw ms n size = some (shrinkLoop w t mw ms size) := by
  intro n
  induction n with
  | zero =>
    intro size h
    exact absurd h (Nat.not_lt_zero _)
  | succ n ih =>
    intro size h
    rw [shrinkLoop_eq]
    by_cases hc : w size t > mw ∧ size > ms
    · rw [shrinkLoopFuel, if_pos hc, if_pos hc]
      apply ih
      have := ceil_measure_lt hc.2
      omega
    · rw [shrinkLoopFuel, if_neg hc, if_neg hc]

/-- C8: for every input, the shrink loop of shrink_text_to_fit terminates:
a finite amount of fuel (one unit per 0.5 decrement from max_size down to
min_size, plus one) makes the fuel-indexed loop return some value, and that
value is exactly the result of shrink_text_to_fit, so the function is a
total function of its inputs. -/
theorem shrink_loop_terminates (w : ℚ → String → ℚ) (t : String) (mw maxs ms : ℚ) :
    ∃ n : ℕ, shrinkLoopFuel w t mw ms n maxs = some (shrink_text_to_fit w t mw maxs ms) :=
  ⟨(⌈2 * (maxs - ms)⌉).toNat + 1,
    shrinkLoopFuel_spec w t mw ms _ maxs (Nat.lt_succ_self _)⟩

/-! ## Lemmas about wrapping -/

/-- sep over a list of at least two words. -/
theorem sep_cons_cons (w x : String) (ws : List String) :
    sep (w :: x :: ws) = w ++ " " ++ sep (x :: ws) := rfl

/-- sep distributes over the concatenation of two nonempty word lists. -/
theorem sep_append : ∀ {xs ys : List String}, xs ≠ [] → ys ≠ [] →
    sep (xs ++ ys) = sep xs ++ " " ++ sep ys := by
  intro xs
  induction xs with
  | nil =>
    intro ys h _
    exact absurd rfl h
  | cons a as ih =>
    intro ys _ hy
    cases as with
    | nil =>
      cases ys with
      | nil => exact absurd rfl hy
      | cons b bs => rfl
    | cons c cs =>
      have h1 : (a :: c :: cs) ++ ys = a :: c :: (cs ++ ys) := rfl
      have h2 : (c :: cs) ++ ys = c :: (cs ++ ys) := rfl
      rw [h1, sep_cons_cons, ← h2, ih (by simp) hy, sep_cons_cons]
      simp [String.append_assoc]

/-- A nonempty line of nonempty words is a nonempty string. -/
theorem sep_ne_empty : ∀ (p : List String), p ≠ [] → (∀ w ∈ p, w ≠ "") → sep p ≠ "" := by
  intro p
  match p with
  | [] =>
    intro h _
    exact absurd rfl h
  | [w] =>
    intro _ hw
    simpa [sep] using hw w (by simp)
  | w :: x :: xs =>
    intro _ _
    rw [sep_cons_cons, ne_eq, String.ext_iff]
    simp

/-- Flattening a nonempty list of nonempty word lists is nonempty. -/
theorem flatten_ne_nil {q : List String} {qs : List (List String)} (hq : q ≠ []) :
    (q :: qs).flatten ≠ [] := by
  simp [List.flatten_eq_nil_iff]
  intro h
  exact absurd h hq

/-- Joining per-part lines with single spaces is joining all words with
single spaces, for a list of nonempty parts. -/
theorem sep_flatten : ∀ (parts : List (List String)), (∀ p ∈ parts, p ≠ []) →
    sep (parts.map sep) = sep parts.flatten := by
  intro parts
  induction parts with
  | nil =>
    intro
    rfl
  | cons p rest ih =>
    intro h
    have hp : p ≠ [] := h p (by simp)
    cases rest with
    | nil => simp [sep]
    | cons q qs =>
      have hq : q ≠ [] := h q (by simp)
      have hrest : ∀ x ∈ q :: qs, x ≠ [] := fun x hx => h x (by simp [hx])
      have hflat : ((q :: qs).flatten : List String) ≠ [] := flatten_ne_nil hq
      calc sep (sep p :: sep q :: qs.map sep)
          = sep p ++ " " ++ sep ((q :: qs).map sep) := by rw [sep_cons_cons]; rfl
        _ = sep p ++ " " ++ sep (q :: qs).flatten := by rw [ih hrest]
        _ = sep (p ++ (q :: qs).flatten) := (sep_append hp hflat).symm
        _ = sep ((p :: q :: qs).flatten) := by simp

/-- Every word produced by the split scan is a nonempty character list. -/
theorem wordsAux_ne_nil : ∀ (cs cur : List Char), ∀ w ∈ wordsAux cs cur, w ≠ [] := by
  intro cs
  induction cs with
  | nil =>
    intro cur w hw
    by_cases hc : cur = []
    · simp [wordsAux, hc] at hw
    · simp only [wordsAux, if_neg hc, List.mem_singleton] at hw
      subst hw
      simpa using hc
  | cons c cs ih =>
    intro cur w hw
    simp only [wordsAux] at hw
    by_cases hws : c.isWhitespace
    · rw [if_pos hws] at hw
      by_cases hc : cur = []
      · rw [if_pos hc] at hw
        exact ih [] w hw
      · rw [if_neg hc, List.mem_cons] at hw
        rcases hw with hw | hw
        · subst hw
          simpa using hc
        · exact ih [] w hw
    · rw [if_neg hws] at hw
      exact ih (c :: cur) w hw

/-- Every word produced by Python text.split() is a nonempty string. -/
theorem pySplit_ne_empty (s : String) : ∀ w ∈ pySplit s, w ≠ "" := by
  intro w hw
  simp only [pySplit, List.mem_map] at hw
  obtain ⟨cs, hcs, rfl⟩ := hw
  have h := wordsAux_ne_nil s.data [] cs hcs
  rw [ne_eq, String.ext_iff]
  simpa using h

/-- Invariant of the wrap loop: every produced line measures within
max_width or is one of the words of allW (the single overlong word case),
given that the pending words come from allW, the current line satisfies the
same disjunction, and all already closed lines do. -/
theorem wrapLoop_good (width : String → ℚ) (mw : ℚ) (allW : List String) :
    ∀ (words cur lines : List String),
      (∀ w ∈ words, w ∈ allW) →
      (cur = [] ∨ width (sep cur) ≤ mw ∨ ∃ w ∈ allW, cur = [w]) →
      (∀ l ∈ lines, width l ≤ mw ∨ l ∈ allW) →
      ∀ l ∈ wrapLoop width mw words lines cur, width l ≤ mw ∨ l ∈ allW := by
  intro words
  induction words with
  | nil =>
    intro cur lines _ hcur hlines l hl
    by_cases hc : cur = []
    · rw [wrapLoop, if_pos hc] at hl
      exact hlines l hl
    · rw [wrapLoop, if_neg hc] at hl
      rcases List.mem_append.mp hl with h | h
      · exact hlines l h
      · rw [List.mem_singleton] at h
        subst h
        rcases hcur with h | h | ⟨w, hwm, hw⟩
        · exact absurd h hc
        · exact Or.inl h
        · subst hw
          exact Or.inr hwm
  | cons w ws ih =>
    intro cur lines hwords hcur hlines l hl
    have hws : ∀ x ∈ ws, x ∈ allW := fun x hx => hwords x (by simp [hx])
    have hwin : w ∈ allW := hwords w (by simp)
    by_cases hfit : width (sep (cur ++ [w])) ≤ mw
    · rw [wrapLoop, if_pos hfit] at hl
      exact ih (cur ++ [w]) lines hws (Or.inr (Or.inl hfit)) hlines l hl
    · by_cases hc : cur = []
      · rw [wrapLoop, if_neg hfit, if_pos hc] at hl
        exact ih [w] lines hws (Or.inr (Or.inr ⟨w, hwin, rfl⟩)) hlines l hl
      · rw [wrapLoop, if_neg hfit, if_neg hc] at hl
        refine ih [w] (lines ++ [sep cur]) hws (Or.inr (Or.inr ⟨w, hwin, rfl⟩)) ?_ l hl
        intro x hx
        rcases List.mem_append.mp hx with h | h
        · exact hlines x h
        · rw [List.mem_singleton] at h
          subst h
          rcases hcur with h | h | ⟨v, hvm, hv⟩
          · exact absurd h hc
          · exact Or.inl h
          · subst hv
            exact Or.inr hvm

/-- Structure of the wrap loop output: the closed lines so far, followed by
one line per part of a partition of the current line and the pending words
into nonempty groups of consecutive words. -/
theorem wrapLoop_partition (width : String → ℚ) (mw : ℚ) :
    ∀ (words cur lines : List String),
      ∃ parts : List (List String),
        wrapLoop width mw words lines cur = lines ++ parts.map sep ∧
        parts.flatten = cur ++ words ∧
        ∀ p ∈ parts, p ≠ [] := by
  intro words
  induction words with
  | nil =>
    intro cur lines
    by_cases hc : cur = []
    · exact ⟨[], by simp [wrapLoop, hc], by simp [hc], by simp⟩
    · exact ⟨[cur], by simp [wrapLoop, hc], by simp, by simpa using hc⟩
  | cons w ws ih =>
    intro cur lines
    by_cases hfit : width (sep (cur ++ [w])) ≤ mw
    · obtain ⟨parts, h1, h2, h3⟩ := ih (cur ++ [w]) lines
      refine ⟨parts, ?_, ?_, h3⟩
      · rw [wrapLoop, if_pos hfit]
        exact h1
      · rw [h2]
        simp
    · by_cases hc : cur = []
      · obtain ⟨parts, h1, h2, h3⟩ := ih [w] lines
        subst hc
        exact ⟨parts, by rw [wrapLoop, if_neg hfit, if_pos rfl]; exact h1,
          by simpa using h2, h3⟩
      · obtain ⟨parts, h1, h2, h3⟩ := ih [w] (lines ++ [sep cur])
        refine ⟨cur :: parts, ?_, ?_, ?_⟩
        · rw [wrapLoop, if_neg hfit, if_neg hc, h1]
          simp
        · simp [h2]
        · intro p hp
          rcases List.mem_cons.mp hp with hp | hp
          · subst hp
            exact hc
          · exact h3 p hp

/-! ## C2 -/

/-- C2: for every metrics table, max_width and text, every line returned by
wrap_text has measured width at most max_width, except when that line is a
single word of the input whose measured width alone exceeds max_width. -/
theorem wrap_line_fits_or_single_word (width : String → ℚ) (mw : ℚ) (text : String)
    (l : String) (hl : l ∈ wrap_text width text mw) :
    width l ≤ mw ∨ (l ∈ pySplit text ∧ mw < width l) := by
  have hgood := wrapLoop_good width mw (pySplit text) (pySplit text) [] []
    (fun w hw => hw) (Or.inl rfl) (by simp) l hl
  rcases hgood with h | h
  · exact Or.inl h
  · rcases le_or_lt (width l) mw with h2 | h2
    · exact Or.inl h2
    · exact Or.inr ⟨h, h2⟩

/-- C2, witness: wrapping "ab cd ef" at max_width 5 with the width of a
string being its character count produces the line "ab cd", which fits. -/
theorem wrap_line_fits_witness :
    (("ab cd".length : ℚ) ≤ 5) ∨
      ("ab cd" ∈ pySplit "ab cd ef" ∧ (5 : ℚ) < ("ab cd".length : ℚ)) :=
  wrap_line_fits_or_single_word (fun s => (s.length : ℚ)) 5 "ab cd ef" "ab cd" (by decide)

/-! ## C3 -/

/-- C3: for every input text in which no single word measures wider than
max_width, joining the lines returned by wrap_text with single spaces
equals the whitespace-normalized input text, i.e. the words of the input
joined by single spaces in order.  (The proof shows the hypothesis is not
even needed: no word is ever dropped or reordered.) -/
theorem wrap_join_normalized (width : String → ℚ) (mw : ℚ) (text : String)
    (_h : ∀ w ∈ pySplit text, width w ≤ mw) :
    sep (wrap_text width text mw) = sep (pySplit text) := by
  obtain ⟨parts, h1, h2, h3⟩ := wrapLoop_partition width mw (pySplit text) [] []
  rw [wrap_text, h1, List.nil_append, sep_flatten parts h3, h2, List.nil_append]

/-- C3, witness: wrapping "to fit in" at max_width 6, width again the
character count (all words fit alone), and rejoining gives "to fit in". -/
theorem wrap_join_normalized_witness :
    sep (wrap_text (fun s => (s.length : ℚ)) "to fit in" 6) = sep (pySplit "to fit in") :=
  wrap_join_normalized (fun s => (s.length : ℚ)) 6 "to fit in" (by decide)

/-! ## C9 -/

/-- C9: every line returned by wrap_text is the single-space join of one or
more consecutive words of the input (the returned lines partition the split
words in order into nonempty groups), every returned line is a nonempty
string, and empty input text yields an empty sequence of lines. -/
theorem wrap_lines_nonempty_partition (width : String → ℚ) (mw : ℚ) (text : String) :
    (∃ parts : List (List String),
        wrap_text width text mw = parts.map sep ∧
        parts.flatten = pySplit text ∧
        ∀ p ∈ parts, p ≠ []) ∧
      (∀ l ∈ wrap_text width text mw, l ≠ "") ∧
      wrap_text width "" mw = [] := by
  obtain ⟨parts, h1, h2, h3⟩ := wrapLoop_partition width mw (pySplit text) [] []
  rw [List.nil_append] at h2
  have hwrap : wrap_text width text mw = parts.map sep := by
    rw [wrap_text, h1, List.nil_append]
  refine ⟨⟨parts, hwrap, h2, h3⟩, ?_, rfl⟩
  intro l hl
  rw [hwrap, List.mem_map] at hl
  obtain ⟨p, hp, rfl⟩ := hl
  refine sep_ne_empty p (h3 p hp) ?_
  intro w hw
  refine pySplit_ne_empty text w ?_
  rw [← h2]
  exact List.mem_flatten.mpr ⟨p, hp, hw⟩

/-- C9, witness: the instantiated statement at the inputs of the other wrap
witnesses, with the inner membership hypothesis discharged on the concrete
line "ef". -/
theorem wrap_lines_nonempty_partition_witness :
    ("ef" : String) ≠ "" ∧ wrap_text (fun s => (s.length : ℚ)) "" 5 = [] := by
  have h := wrap_lines_nonempty_partition (fun s => (s.length : ℚ)) 5 "ab cd ef"
  exact ⟨h.2.1 "ef" (by decide), h.2.2⟩

/-! ## Lemmas about the grid layout -/

/-- Membership characterization of the text emission loop: an instruction
occurs exactly for the line indices whose bottom edge stays inside the
cell, with the y coordinate determined by the enumerate index. -/
theorem mem_textInstrs (x0 sy yTop : ℚ) :
    ∀ (lines : List (String × Font × ℚ)) (i0 : ℕ) (d : DrawInstr),
      d ∈ textInstrs x0 sy yTop i0 lines ↔
        ∃ j : ℕ, ∃ hj : j < lines.length,
          sy + ((i0 + j : ℕ) : ℚ) * LINE_HEIGHT + LINE_HEIGHT ≤ yTop + CELL_HEIGHT ∧
          d = DrawInstr.text (x0 + PADDING) (sy + ((i0 + j : ℕ) : ℚ) * LINE_HEIGHT)
            (lines.get ⟨j, hj⟩).1 (lines.get ⟨j, hj⟩).2.1 (lines.get ⟨j, hj⟩).2.2 := by
  intro lines
  induction lines with
  | nil =>
    intro i0 d
    constructor
    · intro h
      exact absurd h (List.not_mem_nil d)
    · rintro ⟨j, hj, -⟩
      exact absurd hj (Nat.not_lt_zero j)
  | cons l rest ih =>
    intro i0 d
    rw [textInstrs]
    constructor
    · intro h
      rcases List.mem_append.mp h with h | h
      · by_cases hc : sy + (i0 : ℚ) * LINE_HEIGHT + LINE_HEIGHT ≤ yTop + CELL_HEIGHT
        · rw [if_pos hc, List.mem_singleton] at h
          refine ⟨0, Nat.succ_pos _, ?_, ?_⟩
          · simpa using hc
          · simpa using h
        · rw [if_neg hc] at h
          exact absurd h (List.not_mem_nil d)
      · obtain ⟨j, hj, hcond, hde⟩ := (ih (i0 + 1) d).mp h
        have hidx : i0 + 1 + j = i0 + (j + 1) := by omega
        rw [hidx] at hcond hde
        exact ⟨j + 1, Nat.succ_lt_succ hj, hcond, by simpa using hde⟩
    · rintro ⟨j, hj, hcond, hde⟩
      cases j with
      | zero =>
        apply List.mem_append.mpr
        left
        rw [if_pos (by simpa using hcond)]
        rw [List.mem_singleton]
        simpa using hde
      | succ j =>
        apply List.mem_append.mpr
        right
        apply (ih (i0 + 1) d).mpr
        have hidx : i0 + (j + 1) = i0 + 1 + j := by omega
        rw [hidx] at hcond hde
        exact ⟨j, Nat.lt_of_succ_lt_succ hj, hcond, by simpa using hde⟩

/-- Every instruction emitted by the text emission loop is a text
instruction. -/
theorem textInstrs_shape (x0 sy yTop : ℚ) (lines : List (String × Font × ℚ)) (i0 : ℕ)
    (d : DrawInstr) (hd : d ∈ textInstrs x0 sy yTop i0 lines) :
    ∃ x y t f s, d = DrawInstr.text x y t f s := by
  obtain ⟨j, hj, -, hde⟩ := (mem_textInstrs x0 sy yTop lines i0 d).mp hd
  exact ⟨_, _, _, _, _, hde⟩

/-- The add_page marker never occurs among the text instructions. -/
theorem page_not_mem_textInstrs (x0 sy yTop : ℚ) (lines : List (String × Font × ℚ)) (i0 : ℕ) :
    DrawInstr.page ∉ textInstrs x0 sy yTop i0 lines := by
  intro h
  obtain ⟨x, y, t, f, s, he⟩ := textInstrs_shape x0 sy yTop lines i0 _ h
  exact DrawInstr.noConfusion he

/-- The vertical start offset never lies above the top edge of the cell. -/
theorem startY_ge (k : ℕ) (lines : List (String × Font × ℚ)) : cellY k ≤ startY k lines := by
  rw [startY]
  split
  · rename_i h
    have h0 : (0 : ℚ) ≤ (lines.length : ℚ) * LINE_HEIGHT :=
      mul_nonneg (Nat.cast_nonneg _) (by norm_num [LINE_HEIGHT])
    linarith
  · exact le_refl _

/-- A text instruction belongs to the emission of a record exactly when it
belongs to its text emission loop. -/
theorem text_mem_drawRecord_iff (M : Measure) (k : ℕ) (r : Record) (x y : ℚ)
    (t : String) (f : Font) (s : ℚ) :
    DrawInstr.text x y t f s ∈ drawRecord M k r ↔
      DrawInstr.text x y t f s ∈
        textInstrs (cellX k) (startY k (recLines M r)) (cellY k) 0 (recLines M r) := by
  rw [drawRecord]
  constructor
  · intro h
    rcases List.mem_append.mp h with h | h
    · by_cases hc : k % (COLUMNS * ROWS) = 0 ∧ k ≠ 0
      · rw [if_pos hc, List.mem_singleton] at h
        exact DrawInstr.noConfusion h
      · rw [if_neg hc] at h
        exact absurd h (List.not_mem_nil _)
    · rcases List.mem_cons.mp h with h | h
      · exact DrawInstr.noConfusion h
      · exact h
  · intro h
    exact List.mem_append.mpr (Or.inr (List.mem_cons.mpr (Or.inr h)))

/-! ## C4 -/

/-- C4: for every metrics table, record index and record, a centered-text
draw instruction is emitted for the line with enumerate index i at
y = start + i * LINE_HEIGHT exactly when the bottom edge y + LINE_HEIGHT of
that line does not exceed the bottom edge of the cell; lines whose bottom
edge would cross the cell boundary produce no draw instruction, and every
emitted text instruction lies vertically inside its cell rectangle. -/
theorem text_emitted_iff_inside_cell (M : Measure) (k : ℕ) (r : Record) :
    (∀ i : ℕ, i < (recLines M r).length →
      ((∃ t f s, DrawInstr.text (cellX k + PADDING)
            (startY k (recLines M r) + (i : ℚ) * LINE_HEIGHT) t f s ∈ drawRecord M k r) ↔
        startY k (recLines M r) + (i : ℚ) * LINE_HEIGHT + LINE_HEIGHT ≤
          cellY k + CELL_HEIGHT)) ∧
    (∀ (x y : ℚ) (t : String) (f : Font) (s : ℚ),
      DrawInstr.text x y t f s ∈ drawRecord M k r →
      cellY k ≤ y ∧ y + LINE_HEIGHT ≤ cellY k + CELL_HEIGHT) := by
  constructor
  · intro i hi
    constructor
    · rintro ⟨t, f, s, hmem⟩
      rw [text_mem_drawRecord_iff] at hmem
      obtain ⟨j, hj, hcond, hde⟩ := (mem_textInstrs _ _ _ _ _ _).mp hmem
      rw [DrawInstr.text.injEq] at hde
      have hB : (i : ℚ) * LINE_HEIGHT = ((0 + j : ℕ) : ℚ) * LINE_HEIGHT := by
        linarith [hde.2.1]
      have hLH : (LINE_HEIGHT : ℚ) ≠ 0 := by norm_num [LINE_HEIGHT]
      have hcast : (i : ℚ) = ((0 + j : ℕ) : ℚ) := mul_right_cancel₀ hLH hB
      have hij : i = j := by
        have h0 : ((0 + j : ℕ) : ℚ) = (j : ℚ) := by norm_num
        rw [h0] at hcast
        exact_mod_cast hcast
      subst hij
      simpa using hcond
    · intro hcond
      refine ⟨(recLines M r).get ⟨i, hi⟩ |>.1, (recLines M r).get ⟨i, hi⟩ |>.2.1,
        (recLines M r).get ⟨i, hi⟩ |>.2.2, ?_⟩
      rw [text_mem_drawRecord_iff]
      refine (mem_textInstrs _ _ _ _ _ _).mpr ⟨i, hi, by simpa using hcond, by simp⟩
  · intro x y t f s hmem
    rw [text_mem_drawRecord_iff] at hmem
    obtain ⟨j, hj, hcond, hde⟩ := (mem_textInstrs _ _ _ _ _ _).mp hmem
    rw [DrawInstr.text.injEq] at hde
    obtain ⟨-, hy, -, -, -⟩ := hde
    subst hy
    refine ⟨?_, hcond⟩
    have h1 := startY_ge k (recLines M r)
    have h2 : (0 : ℚ) ≤ ((0 + j : ℕ) : ℚ) * LINE_HEIGHT :=
      mul_nonneg (Nat.cast_nonneg _) (by norm_num [LINE_HEIGHT])
    linarith

/-- Entries of the one-present-field witness record. -/
theorem entriesOf_r0 : entriesOf r0 = [(Font.muli, "A")] := by decide

/-- Under the constant-zero metrics table the shrink loop stops at once. -/
theorem shrink_M0_A :
    shrink_text_to_fit (M0 Font.muli) "A" max_width MAX_FONT_SIZE MIN_FONT_SIZE =
      MAX_FONT_SIZE := by
  rw [shrink_text_to_fit, shrinkLoop_eq, if_neg]
  rintro ⟨h1, -⟩
  norm_num [M0, max_width, CELL_WIDTH, PADDING] at h1

/-- Under the constant-zero metrics table the witness text wraps to one
line. -/
theorem wrap_M0_A : wrap_text (M0 Font.muli MAX_FONT_SIZE) "A" max_width = ["A"] := by
  rw [wrap_text, show pySplit "A" = ["A"] from by decide, wrapLoop, if_pos ?hc]
  case hc => norm_num [M0, max_width, CELL_WIDTH, PADDING]
  rw [wrapLoop, if_neg (by simp)]
  rfl

/-- The witness record lays out as a single line at the maximal size. -/
theorem recLines_M0_r0 : recLines M0 r0 = [("A", Font.muli, MAX_FONT_SIZE)] := by
  rw [recLines, entriesOf_r0]
  simp only [List.flatMap_cons, List.flatMap_nil, List.append_nil]
  rw [shrink_M0_A, wrap_M0_A]
  rfl

/-- C4, witness: the truncation criterion instantiated at the witness
record, whose single line has its bottom edge inside the cell. -/
theorem text_emitted_iff_witness :
    (∃ t f s, DrawInstr.text (cellX 0 + PADDING)
        (startY 0 (recLines M0 r0) + ((0 : ℕ) : ℚ) * LINE_HEIGHT) t f s ∈
          drawRecord M0 0 r0) ↔
      startY 0 (recLines M0 r0) + ((0 : ℕ) : ℚ) * LINE_HEIGHT + LINE_HEIGHT ≤
        cellY 0 + CELL_HEIGHT :=
  (text_emitted_iff_inside_cell M0 0 r0).1 0 (by rw [recLines_M0_r0]; norm_num)

/-! ## C5 -/

/-- C5: for every metrics table and record index, a record whose three
fields are all absent (empty after trimming or a textual null marker such
as nan) emits only its border rectangle beyond a possible page-start
marker: no text instruction at all, while the record still consumes its
grid cell at the position given by its index. -/
theorem absent_record_border_only (M : Measure) (k : ℕ) (r : Record)
    (h1 : present r.fullName = false) (h2 : present r.position = false)
    (h3 : present r.company = false) :
    drawRecord M k r =
      (if k % (COLUMNS * ROWS) = 0 ∧ k ≠ 0 then [DrawInstr.page] else []) ++
        [DrawInstr.rect (cellX k) (cellY k) CELL_WIDTH CELL_HEIGHT] := by
  have he : entriesOf r = [] := by
    simp [entriesOf, h1, h2, h3]
  have hl : recLines M r = [] := by
    rw [recLines, he]
    rfl
  rw [drawRecord, hl]
  rfl

/-- C5, witness: a record with fields "", " " and "NaN" at index 0 draws
exactly the border of cell 0. -/
theorem absent_record_border_only_witness :
    drawRecord M0 0 rAbs = [DrawInstr.rect (cellX 0) (cellY 0) CELL_WIDTH CELL_HEIGHT] := by
  have h := absent_record_border_only M0 0 rAbs (by decide) (by decide) (by decide)
  rw [h, if_neg (by simp)]
  rfl

/-! ## C6 -/

/-- The add_page marker occurs in the emission of a record exactly under
the page break condition of app.py line 82. -/
theorem page_mem_drawRecord (M : Measure) (k : ℕ) (r : Record) :
    DrawInstr.page ∈ drawRecord M k r ↔ (k % (COLUMNS * ROWS) = 0 ∧ k ≠ 0) := by
  rw [drawRecord]
  constructor
  · intro h
    rcases List.mem_append.mp h with h | h
    · by_cases hc : k % (COLUMNS * ROWS) = 0 ∧ k ≠ 0
      · exact hc
      · rw [if_neg hc] at h
        exact absurd h (List.not_mem_nil _)
    · rcases List.mem_cons.mp h with h | h
      · exact DrawInstr.noConfusion h
      · exact absurd h (page_not_mem_textInstrs _ _ _ _ _)
  · intro hc
    rw [if_pos hc]
    exact List.mem_append.mpr (Or.inl (List.mem_singleton.mpr rfl))

/-- Number of add_page markers emitted for one record. -/
theorem countP_page_drawRecord (M : Measure) (k : ℕ) (r : Record) :
    (drawRecord M k r).countP DrawInstr.isPage =
      if k % (COLUMNS * ROWS) = 0 ∧ k ≠ 0 then 1 else 0 := by
  rw [drawRecord, List.countP_append]
  have h0 : (DrawInstr.rect (cellX k) (cellY k) CELL_WIDTH CELL_HEIGHT ::
      textInstrs (cellX k) (startY k (recLines M r)) (cellY k) 0 (recLines M r)).countP
        DrawInstr.isPage = 0 := by
    rw [List.countP_eq_zero]
    intro a ha
    rcases List.mem_cons.mp ha with h | h
    · subst h
      simp [DrawInstr.isPage]
    · obtain ⟨x, y, t, f, s, he⟩ := textInstrs_shape _ _ _ _ _ _ h
      subst he
      simp [DrawInstr.isPage]
  rw [h0]
  split
  · rfl
  · rfl

/-- Number of add_page markers over the tail of the record loop, as a count
of the page break condition over the remaining indices. -/
theorem countP_page_drawLoop (M : Measure) :
    ∀ (data : List Record) (k : ℕ),
      (drawLoop M k data).countP DrawInstr.isPage =
        (List.range data.length).countP
          (fun j => decide ((k + j) % (COLUMNS * ROWS) = 0 ∧ k + j ≠ 0)) := by
  intro data
  induction data with
  | nil =>
    intro k
    rfl
  | cons r rest ih =>
    intro k
    rw [drawLoop, List.countP_append, countP_page_drawRecord, ih (k + 1),
      List.length_cons, List.range_succ_eq_map, List.countP_cons, List.countP_map]
    have h1 : (List.range rest.length).countP
        ((fun j => decide ((k + j) % (COLUMNS * ROWS) = 0 ∧ k + j ≠ 0)) ∘ Nat.succ) =
        (List.range rest.length).countP
          (fun j => decide ((k + 1 + j) % (COLUMNS * ROWS) = 0 ∧ k + 1 + j ≠ 0)) := by
      apply List.countP_congr
      intro a _
      simp only [Function.comp_apply, Nat.succ_eq_add_one]
      have he : k + (a + 1) = k + 1 + a := by omega
      rw [he]
    rw [h1]
    have h2 : (decide ((k + 0) % (COLUMNS * ROWS) = 0 ∧ k + 0 ≠ 0)) =
        decide (k % (COLUMNS * ROWS) = 0 ∧ k ≠ 0) := by
      norm_num
    rw [h2]
    by_cases hc : k % (COLUMNS * ROWS) = 0 ∧ k ≠ 0
    · rw [if_pos hc, if_pos (by simpa using hc)]
      omega
    · rw [if_neg hc, if_neg (by simpa using hc)]
      omega

/-- One step of the page break count. -/
theorem recordPage_succ (n : ℕ) :
    recordPage (n + 1) = recordPage n + if (n + 1) % (COLUMNS * ROWS) = 0 then 1 else 0 := by
  rw [recordPage, recordPage, List.range_succ, List.filter_append, List.length_append]
  congr 1
  by_cases hc : (n + 1) % (COLUMNS * ROWS) = 0
  · rw [if_pos hc]
    have hp : ((n + 1) % (COLUMNS * ROWS) == 0 && (n + 1) != 0) = true := by
      simp [hc]
    rw [List.filter_cons, if_pos hp]
    rfl
  · rw [if_neg hc]
    have hp : ¬(((n + 1) % (COLUMNS * ROWS) == 0 && (n + 1) != 0) = true) := by
      simp [hc]
    rw [List.filter_cons, if_neg hp]
    rfl

/-- Closed form of the page break count: the page a record lands on is its
index divided by the number of cells per page, exactly the page formula of
the spec, section 3. -/
theorem recordPage_eq (k : ℕ) : recordPage k = k / (COLUMNS * ROWS) := by
  induction k with
  | zero => rfl
  | succ n ih =>
    rw [recordPage_succ, ih, Nat.succ_div]
    congr 1
    have hiff : (n + 1) % (COLUMNS * ROWS) = 0 ↔ COLUMNS * ROWS ∣ n + 1 :=
      Nat.dvd_iff_mod_eq_zero.symm
    by_cases hd : COLUMNS * ROWS ∣ n + 1
    · rw [if_pos (hiff.mpr hd), if_pos hd]
    · rw [if_neg (fun h => hd (hiff.mp h)), if_neg hd]

/-- C6: with the configured geometry (4 columns, 8 rows, 70 by 23 cells),
for every record index k below 33: the page break count places records 0
through 31 on page 0 and record 32 on page 1; the CellPlacement arithmetic
agrees, and puts record 32 at column 0, row 0; the add_page marker is
emitted for record k exactly when cell_index = 0 and k is not 0, which for
k below 33 happens exactly at k = 32; and laying out any sequence of 33
records emits exactly one add_page marker in total. -/
theorem thirty_three_records_pagination (M : Measure) (r : Record) (k : ℕ)
    (hk : k < 33) :
    (recordPage k = if k = 32 then 1 else 0) ∧
      ((cellPlacement COLUMNS ROWS k).page = if k = 32 then 1 else 0) ∧
      (k = 32 → (cellPlacement COLUMNS ROWS k).column = 0 ∧
        (cellPlacement COLUMNS ROWS k).row = 0) ∧
      (DrawInstr.page ∈ drawRecord M k r ↔ (k % (COLUMNS * ROWS) = 0 ∧ k ≠ 0)) ∧
      ((k % (COLUMNS * ROWS) = 0 ∧ k ≠ 0) ↔ k = 32) ∧
      (∀ data : List Record, data.length = 33 →
        (draw_grid M data).countP DrawInstr.isPage = 1) := by
  refine ⟨?_, ?_, ?_, page_mem_drawRecord M k r, ?_, ?_⟩
  · exact (by decide : ∀ m, m < 33 → recordPage m = if m = 32 then 1 else 0) k hk
  · exact (by decide :
      ∀ m, m < 33 → (cellPlacement COLUMNS ROWS m).page = if m = 32 then 1 else 0) k hk
  · exact (by decide : ∀ m, m < 33 → (m = 32 → (cellPlacement COLUMNS ROWS m).column = 0 ∧
      (cellPlacement COLUMNS ROWS m).row = 0)) k hk
  · exact (by decide : ∀ m, m < 33 → ((m % (COLUMNS * ROWS) = 0 ∧ m ≠ 0) ↔ m = 32)) k hk
  · intro data hlen
    rw [draw_grid, countP_page_drawLoop, hlen]
    decide

/-- C6, witness: the theorem applied at record index 32 and a concrete
33-record sequence. -/
theorem thirty_three_records_pagination_witness :
    recordPage 32 = 1 ∧
      (cellPlacement COLUMNS ROWS 32).column = 0 ∧
      (cellPlacement COLUMNS ROWS 32).row = 0 ∧
      (DrawInstr.page ∈ drawRecord M0 32 rAbs ↔
        (32 % (COLUMNS * ROWS) = 0 ∧ (32 : ℕ) ≠ 0)) ∧
      (draw_grid M0 (List.replicate 33 rAbs)).countP DrawInstr.isPage = 1 := by
  have h := thirty_three_records_pagination M0 rAbs 32 (by norm_num)
  exact ⟨by simpa using h.1, (h.2.2.1 rfl).1, (h.2.2.1 rfl).2, h.2.2.2.1,
    h.2.2.2.2.2 (List.replicate 33 rAbs) (by simp)⟩

/-! ## C7 -/

/-- C7: for every record index k and positive grid dimensions C and R, the
CellPlacement of record k + C * R has the same column and the same row as
that of record k, and its page is exactly one greater; with the configured
geometry the code page break count recordPage shifts the same way. -/
theorem cellPlacement_shift_page (C R k : ℕ) (hC : 0 < C) (hR : 0 < R) :
    (cellPlacement C R (k + C * R)).column = (cellPlacement C R k).column ∧
      (cellPlacement C R (k + C * R)).row = (cellPlacement C R k).row ∧
      (cellPlacement C R (k + C * R)).page = (cellPlacement C R k).page + 1 ∧
      recordPage (k + COLUMNS * ROWS) = recordPage k + 1 := by
  have hCR : 0 < C * R := Nat.mul_pos hC hR
  refine ⟨?_, ?_, ?_, ?_⟩
  · simp [cellPlacement, Nat.add_mod_right]
  · simp [cellPlacement, Nat.add_mod_right]
  · simp [cellPlacement, Nat.add_div_right _ hCR]
  · rw [recordPage_eq, recordPage_eq, Nat.add_div_right _ (by decide : 0 < COLUMNS * ROWS)]

/-- C7, witness: the theorem applied at C = 4, R = 8, k = 5. -/
theorem cellPlacement_shift_page_witness :
    (cellPlacement 4 8 (5 + 4 * 8)).column = (cellPlacement 4 8 5).column ∧
      (cellPlacement 4 8 (5 + 4 * 8)).row = (cellPlacement 4 8 5).row ∧
      (cellPlacement 4 8 (5 + 4 * 8)).page = (cellPlacement 4 8 5).page + 1 ∧
      recordPage (5 + COLUMNS * ROWS) = recordPage 5 + 1 :=
  cellPlacement_shift_page 4 8 5 (by norm_num) (by norm_num)

/-! ## C10 -/

/-- In the app_backup.py variant, one record always yields exactly the
three field texts with their fonts, in order. -/
theorem backup_drawRecord_textOf (M : Measure) (k : ℕ) (r : Record) :
    (Backup.drawRecord M k r).filterMap textOf =
      [(r.fullName, Font.muli), (r.position, Font.din), (r.company, Font.din)] := by
  rw [Backup.drawRecord, List.filterMap_append]
  split
  · rfl
  · rfl

/-- In the app_backup.py variant, the record loop emits three text
instructions per record, in record order. -/
theorem backup_drawLoop_textOf (M : Measure) :
    ∀ (data : List Record) (k : ℕ),
      (Backup.drawLoop M k data).filterMap textOf =
        data.flatMap
          (fun x => [(x.fullName, Font.muli), (x.position, Font.din), (x.company, Font.din)]) := by
  intro data
  induction data with
  | nil =>
    intro k
    rfl
  | cons r rest ih =>
    intro k
    rw [Backup.drawLoop, List.filterMap_append, backup_drawRecord_textOf, ih (k + 1),
      List.flatMap_cons]

/-- C10: in the app_backup.py variant, draw_grid emits exactly three text
draw instructions for every record, one each for Full Name (Muli font),
Position and Company (DIN font), in that order, regardless of whether a
field is absent: the raw str() value (for instance nan) is drawn, with no
wrapping and no bottom-edge truncation check filtering any of the three
lines. -/
theorem backup_three_text_lines_per_record (M : Measure) (k : ℕ) (r : Record)
    (data : List Record) :
    ((Backup.drawRecord M k r).filterMap textOf =
        [(r.fullName, Font.muli), (r.position, Font.din), (r.company, Font.din)]) ∧
      ((Backup.draw_grid M data).filterMap textOf =
        data.flatMap
          (fun x => [(x.fullName, Font.muli), (x.position, Font.din), (x.company, Font.din)])) :=
  ⟨backup_drawRecord_textOf M k r, backup_drawLoop_textOf M data 0⟩
